import Mathlib

/-!
A verification development for the rustpkg package-identifier module
(`src/librustpkg/package_id.rs`): character classifier, URL-shape
heuristic, legality gate, identifier constructor, prefix enumerator and
derived labels.

Modelling conventions.  Strings are Lean `String`s (lists of characters);
the byte-level distinctions of the original only matter where a slice
index is computed, and there the length arithmetic is modelled with
explicit wraparound at `2 ^ 64` as in the original's unsigned `len() - 1`.
The external collaborators that are not part of the sources under
verification (the standard path library, the version module, the Unicode
tables of the character classifier, the streaming hash engine and the
`bad_pkg_id` condition mechanism) are modelled from the specification:
paths keep their raw string, versions are an explicit tag or absence,
the version probes are opaque function parameters, the supra-ASCII part
of the classifier is an opaque predicate parameter, the hash engine is an
abstract state machine, and a raised condition or a failure surfaces as
the error side of `Except`.
-/

deriving instance DecidableEq for Except

namespace RustPkg

/-! ## Character-list helpers for `/`-separated paths -/

/-- Modelled from the spec: the fields of a character list around each
`/` separator (the component view of a path string). -/
def splitSlash : List Char → List (List Char)
  | [] => [[]]
  | c :: rest =>
    if c = '/' then [] :: splitSlash rest
    else
      match splitSlash rest with
      | [] => [[c]]
      | g :: gs => (c :: g) :: gs

/-- Joining a list of components with the `/` separator (Rust's
`connect("/")` at the character level). -/
def joinSlash : List (List Char) → List Char
  | [] => []
  | [g] => g
  | g :: gs => g ++ '/' :: joinSlash gs

/-- Rust's `connect("/")` on a vector of path components. -/
def connect_slash (ss : List String) : String :=
  ⟨joinSlash (ss.map String.data)⟩

/-! ## The path type (external collaborator) -/

/-- Modelled from the spec: the standard library path value used by
`PkgId` (absent from src/).  A path is kept as its raw string; per the
spec a trailing `/` is not stripped before construction. -/
structure Path where
  repr : String
deriving DecidableEq, BEq

/-- Modelled from the spec: building a path value from a string. -/
def Path.new (s : String) : Path := ⟨s⟩

/-- Modelled from the spec: the `/`-separated components of the path. -/
def Path.components (p : Path) : List String :=
  (splitSlash p.repr.data).map (fun g => (⟨g⟩ : String))

/-- Modelled from the spec: a path is absolute when it has a leading `/`. -/
def Path.is_absolute (p : Path) : Bool :=
  match p.repr.data with
  | '/' :: _ => true
  | _ => false

/-- Modelled from the spec: relative means not absolute. -/
def Path.is_relative (p : Path) : Bool := !p.is_absolute

/-- Modelled from the spec: the final component of the path, absent when
the path ends in a separator (or is empty), i.e. when the last
`/`-separated field is empty. -/
def Path.filename (p : Path) : Option String :=
  match p.components.getLast? with
  | some c => if c = "" then none else some c
  | none => none

/-- Modelled from the spec: a file name without its extension — the part
before the last `.`; a name whose only `.` is its first character has no
extension, and a name with no `.` is its own stem. -/
def filestem_of (name : String) : String :=
  match name.data.reverse.dropWhile (fun c => c != '.') with
  | [] => name
  | [_] => name
  | _ :: rest => ⟨rest.reverse⟩

/-- Modelled from the spec: the stem of the final component, when there
is one. -/
def Path.filestem_str (p : Path) : Option String :=
  p.filename.map filestem_of

/-! ## Versions and the version collaborator -/

/-- Modelled from the spec: a version is an explicit opaque tag or the
`none` version. -/
inductive Version
  | explicit (tag : String)
  | none
deriving DecidableEq, BEq

/-- Modelled from the spec: the version stringifies to its tag, and to
the empty string when absent. -/
def Version.to_str : Version → String
  | .explicit t => t
  | .none => ""

/-- Modelled from the spec: `split_version` from the version collaborator
(absent from src/): when the input contains a `#`, the portion before the
first `#` is the path part and the portion after it is the version tag;
otherwise the result is absent. -/
def split_version (s : String) : Option (String × String) :=
  if s.data.contains '#' then
    some (⟨s.data.takeWhile (fun c => c != '#')⟩,
          ⟨(s.data.dropWhile (fun c => c != '#')).tail⟩)
  else none

/-! ## Errors -/

/-- The ways identifier construction can fail.  `parseFail` models the
`fail!` after the legality gate rejects (carrying the URL suggestion that
was sent to the error sink, if any); `sliceOutOfRange` models the task
failure of an out-of-range `slice_to` inside the URL heuristic;
`badPkgId` models the raised `bad_pkg_id` condition propagating with its
`(path, reason)` payload when no handler is installed; `missingFilestem`
models the `expect` failure on a path with no derivable stem. -/
inductive PkgIdError
  | parseFail (input : String) (suggestion : Option String)
  | sliceOutOfRange
  | badPkgId (path : Path) (reason : String)
  | missingFilestem (input : String)
deriving DecidableEq, BEq

/-! ## Character classifier -/

/-- The classifier `is_url_part`: ASCII letters and digits, `-`, `_`,
`.`, `/`, and above U+007F whatever the host Unicode tables accept.  The
standard library tables (`is_alphanumeric`, `is_XID_start`,
`is_XID_continue`), absent from src/, are abstracted by the opaque
predicate `uni`, which stands for their disjunction on the supra-ASCII
range; on ASCII, alphanumeric is `Char.isAlphanum`. -/
def is_url_part (uni : Char → Bool) (ch : Char) : Bool :=
  (if ch.toNat ≤ 0x7f then ch.isAlphanum else uni ch) ||
    ch == '-' || ch == '_' || ch == '.' || ch == '/' ||
    (decide (0x7f < ch.toNat) && uni ch)

/-! ## URL-shape heuristic -/

/-- Rust `split_str_iter("://")`: the fields of a character list around
each occurrence of the literal `://`. -/
def split_scheme : List Char → List (List Char)
  | ':' :: '/' :: '/' :: rest => [] :: split_scheme rest
  | [] => [[]]
  | c :: rest =>
    match split_scheme rest with
    | [] => [[c]]
    | g :: gs => (c :: g) :: gs

/-- Rust `trim_right_chars` with the predicate `c != '.'`: remove the
trailing run of non-`.` characters. -/
def trim_right_non_dot (s : String) : String :=
  ⟨(s.data.reverse.dropWhile (fun c => c != '.')).reverse⟩

/-- The original computes `len() - 1` on an unsigned machine word; on a
zero length this wraps around to `2 ^ 64 - 1`. -/
def uint_minus_one (n : Nat) : Nat :=
  (n + (2 ^ 64 - 1)) % 2 ^ 64

/-- Rust `slice_to`: the prefix of the given length, a task failure when
the index exceeds the string's length. -/
def slice_to (s : String) (n : Nat) : Except PkgIdError String :=
  if n ≤ s.data.length then .ok ⟨s.data.take n⟩ else .error .sliceOutOfRange

/-- The body of the `drop_url_scheme` loop for one segment, carrying the
`is_url` flag, the running segment count `seen` and the candidate
`result`: scan the segment's characters, and on the segment of index 1
trim the trailing extension and remove the final `.` by `slice_to` —
which is a task failure when the trimmed segment is empty. -/
def url_scheme_step (uni : Char → Bool) (is_url : Bool) (seen : Nat)
    (result : Option String) (substr : List Char) :
    Except PkgIdError (Bool × Nat × Option String) :=
  let is_url := is_url && substr.all (is_url_part uni)
  if seen == 1 then
    let no_extension := trim_right_non_dot ⟨substr⟩
    match slice_to no_extension (uint_minus_one no_extension.data.length) with
    | .error e => .error e
    | .ok r => .ok (is_url, seen + 1, some r)
  else
    .ok (is_url, seen + 1, result)

/-- The `drop_url_scheme` loop over the `://`-separated segments. -/
def drop_url_scheme_go (uni : Char → Bool) :
    List (List Char) → Bool → Nat → Option String →
      Except PkgIdError (Bool × Nat × Option String)
  | [], is_url, seen, result => .ok (is_url, seen, result)
  | substr :: rest, is_url, seen, result =>
    match url_scheme_step uni is_url seen result substr with
    | .error e => .error e
    | .ok st => drop_url_scheme_go uni rest st.1 st.2.1 st.2.2

/-- `drop_url_scheme`: split on `://`; if every character of every
segment passes the classifier and at least one split occurred (the final
count `seen` exceeds 1), the candidate is segment 1 with its trailing
extension stripped. -/
def drop_url_scheme (uni : Char → Bool) (s : String) :
    Except PkgIdError (Option String) :=
  let segs := split_scheme s.data
  match drop_url_scheme_go uni segs true 0 Option.none with
  | .error e => .error e
  | .ok st =>
    if st.1 && decide (1 < st.2.1) then .ok st.2.2 else .ok Option.none

/-! ## Legality gate -/

/-- The scanning loop of `ensure_legal_package_id`: left to right, stop
at the first `#`, fail on the first character rejected by the
classifier. -/
def scan_legal (uni : Char → Bool) : List Char → Bool
  | [] => true
  | ch :: rest =>
    if ch == '#' then true
    else if !is_url_part uni ch then false
    else scan_legal uni rest

/-- `ensure_legal_package_id`: when the scan rejects, run the URL-shape
heuristic (whose suggestion, if any, is emitted through the error sink)
and fail.  A task failure inside the heuristic propagates instead. -/
def ensure_legal_package_id (uni : Char → Bool) (s : String) :
    Except PkgIdError Unit :=
  if scan_legal uni s.data then .ok ()
  else
    match drop_url_scheme uni s with
    | .error e => .error e
    | .ok maybe_intended_path => .error (.parseFail s maybe_intended_path)

/-! ## The identifier and its constructor -/

/-- The identifier triple of `package_id.rs`. -/
structure PkgId where
  path : Path
  short_name : String
  version : Version
deriving DecidableEq, BEq

/-- `PkgId::new`.  The probes `try_getting_local_version` and
`try_getting_version` of the version collaborator (absent from src/) are
opaque function parameters, and `uni` abstracts the classifier's Unicode
tables.  A raised `bad_pkg_id` condition with no installed handler
propagates as the error side. -/
def PkgId.new (try_getting_local_version try_getting_version : Path → Option Version)
    (uni : Char → Bool) (s : String) : Except PkgIdError PkgId :=
  match ensure_legal_package_id uni s with
  | .error e => .error e
  | .ok _ =>
    let (given_version, s) :=
      match split_version s with
      | some (path, v) => (some (Version.explicit v), path)
      | Option.none => (Option.none, s)
    let path := Path.new s
    if !path.is_relative then
      .error (.badPkgId path "absolute pkgid")
    else if path.filename.isNone then
      .error (.badPkgId path "0-length pkgid")
    else
      match path.filestem_str with
      | Option.none => .error (.missingFilestem s)
      | some short_name =>
        let version :=
          match given_version with
          | some v => v
          | Option.none =>
            match try_getting_local_version path with
            | some v => v
            | Option.none =>
              match try_getting_version path with
              | some v => v
              | Option.none => Version.none
        .ok { path := path, short_name := short_name, version := version }

/-! ## Derived labels -/

/-- `ToStr for PkgId`: the whole path, a `-`, then the version string. -/
def PkgId.to_str (id : PkgId) : String :=
  id.path.repr ++ "-" ++ id.version.to_str

/-- `Eq for PkgId`: equality compares only the path and the version. -/
def PkgId.eq (a b : PkgId) : Bool :=
  a.path == b.path && a.version == b.version

/-- `PkgId::is_complex`: the byte-encoded short name differs from the
byte-encoded path. -/
def PkgId.is_complex (id : PkgId) : Bool :=
  !(id.short_name == id.path.repr)

/-- `PkgId::short_name_with_version`. -/
def PkgId.short_name_with_version (id : PkgId) : String :=
  id.short_name ++ id.version.to_str

/-- `PkgId::install_tag`. -/
def PkgId.install_tag (id : PkgId) : String :=
  "install(" ++ id.to_str ++ ")"

/-! ## Streaming hash helper -/

/-- Modelled from the spec: the collaborator streaming hash engine
(`std::hash`, absent from src/): a default initial state, feeding a byte
sequence, and finalizing to a hex digest string; the algorithm is
opaque. -/
structure Streaming (σ : Type) where
  default_state : σ
  write : σ → List Nat → σ
  result_str : σ → String

/-- The bytes fed to the engine for a string (code points; the UTF-8
refinement is immaterial to the engine, which is opaque). -/
def str_bytes (s : String) : List Nat := s.data.map Char.toNat

/-- `write`: feed a string's bytes into the engine state. -/
def write_str {σ : Type} (engine : Streaming σ) (st : σ) (string : String) : σ :=
  engine.write st (str_bytes string)

/-- The free function `hash`: default state, one write, hex digest. -/
def hash_str {σ : Type} (engine : Streaming σ) (data : String) : String :=
  engine.result_str (write_str engine engine.default_state data)

/-- `PkgId::hash`: `<path>-<digest>-<version>` with the digest taken of
the path string concatenated with the version string. -/
def PkgId.hash {σ : Type} (engine : Streaming σ) (id : PkgId) : String :=
  let s := id.path.repr
  let vers := id.version.to_str
  s ++ "-" ++ hash_str engine (s ++ vers) ++ "-" ++ vers

/-! ## Prefix enumerator -/

/-- The two-stack state of the `Prefixes` iterator. -/
structure Prefixes where
  components : List String
  remaining : List String
deriving DecidableEq

/-- `prefixes_iter`: start from the path's components with an empty
`remaining` stack. -/
def prefixes_iter (p : Path) : Prefixes :=
  { components := p.components, remaining := [] }

/-- `Prefixes::next`: nothing once at most one component is left;
otherwise pop the last component onto the front of `remaining` and yield
the two stacks joined by `/`. -/
def Prefixes.next (st : Prefixes) : Option ((Path × Path) × Prefixes) :=
  if st.components.length ≤ 1 then Option.none
  else
    let last := st.components.getLastD ""
    let components := st.components.dropLast
    let remaining := last :: st.remaining
    some ((Path.new (connect_slash components), Path.new (connect_slash remaining)),
          { components := components, remaining := remaining })

/-- Draining the iterator with enough fuel (structural recursion so the
drained sequence evaluates). -/
def collect_fuel : Nat → Prefixes → List (Path × Path)
  | 0, _ => []
  | n + 1, st =>
    match st.next with
    | Option.none => []
    | some (pair, st') => pair :: collect_fuel n st'

/-- Everything the single-pass iterator yields, in order. -/
def Prefixes.collect (st : Prefixes) : List (Path × Path) :=
  collect_fuel st.components.length st

/-! ## Helper definitions for the statements and proofs -/

/-- The version-resolution chain of `PkgId::new`, factored out: the
explicit tag if present, else the local probe, else the remote probe,
else the `none` version. -/
def resolve_version (try_getting_local_version try_getting_version : Path → Option Version)
    (given_version : Option Version) (path : Path) : Version :=
  match given_version with
  | some v => v
  | Option.none =>
    match try_getting_local_version path with
    | some v => v
    | Option.none =>
      match try_getting_version path with
      | some v => v
      | Option.none => Version.none

/-- The part of `PkgId::new` after the legality gate and the version
split, factored out for reasoning: structural checks on the path, stem
extraction, version resolution. -/
def new_post (try_getting_local_version try_getting_version : Path → Option Version)
    (given_version : Option Version) (s : String) : Except PkgIdError PkgId :=
  let path := Path.new s
  if !path.is_relative then
    .error (.badPkgId path "absolute pkgid")
  else if path.filename.isNone then
    .error (.badPkgId path "0-length pkgid")
  else
    match path.filestem_str with
    | Option.none => .error (.missingFilestem s)
    | some short_name =>
      .ok { path := path, short_name := short_name,
            version := resolve_version try_getting_local_version try_getting_version
              given_version path }

/-- The `(given_version, path part)` pair after the version split,
factored out of `PkgId::new` for reasoning. -/
def split_pair (s : String) : Option Version × String :=
  match split_version s with
  | some (path, v) => (some (Version.explicit v), path)
  | Option.none => (Option.none, s)

/-- The input that re-supplies a constructed identifier's resolved
version explicitly: the path string with the version tag re-attached
after `#` when the version is explicit, the path string alone when the
version is absent. -/
def reparse_input (id : PkgId) : String :=
  match id.version with
  | .explicit t => id.path.repr ++ "#" ++ t
  | .none => id.path.repr

/-- A version collaborator whose probes find nothing (a concrete
instantiation for witnesses). -/
def no_version_lookup : Path → Option Version := fun _ => Option.none

/-- A Unicode table accepting nothing above ASCII (a concrete
instantiation for witnesses; every witness input is ASCII). -/
def ascii_uni : Char → Bool := fun _ => false

/-- Whether a construction failure is a syntactic rejection: a failure
arising inside the legality gate (the parse failure proper, or the task
failure of the URL heuristic run by the gate), as opposed to the
structural `bad_pkg_id` conditions and the missing-stem contradiction. -/
def PkgIdError.is_syntactic : PkgIdError → Bool
  | .parseFail _ _ => true
  | .sliceOutOfRange => true
  | .badPkgId _ _ => false
  | .missingFilestem _ => false

/-- Modelled from the spec: the version-resolution precedence exactly as
the spec words it — the explicit tag from the version splitter if
present, else the local probe on the path, else the remote probe, else
the `none` version (stated independently of the constructor, to be
compared with it). -/
def spec_version_precedence
    (try_getting_local_version try_getting_version : Path → Option Version)
    (s : String) : Version :=
  match split_version s with
  | some (_, v) => Version.explicit v
  | Option.none =>
    match try_getting_local_version (Path.new s) with
    | some v => v
    | Option.none =>
      match try_getting_version (Path.new s) with
      | some v => v
      | Option.none => Version.none

/-- A concrete streaming engine for witnesses: the state accumulates the
bytes fed, the digest renders them. -/
def list_engine : Streaming (List Nat) :=
  { default_state := [], write := fun st bs => st ++ bs,
    result_str := fun st => toString st }

/-! ## Lemmas: the component view of a path string -/

lemma splitSlash_ne_nil (l : List Char) : splitSlash l ≠ [] := by
  induction l with
  | nil => simp [splitSlash]
  | cons c rest ih =>
    simp only [splitSlash]
    split
    · simp
    · split
      · simp
      · simp

lemma joinSlash_cons_cons (g h : List Char) (t : List (List Char)) :
    joinSlash (g :: h :: t) = g ++ '/' :: joinSlash (h :: t) := rfl

lemma joinSlash_splitSlash (l : List Char) : joinSlash (splitSlash l) = l := by
  induction l with
  | nil => rfl
  | cons c rest ih =>
    simp only [splitSlash]
    by_cases hc : c = '/'
    · subst hc
      rw [if_pos rfl]
      obtain ⟨g, gs, hg⟩ : ∃ g gs, splitSlash rest = g :: gs := by
        cases h : splitSlash rest with
        | nil => exact absurd h (splitSlash_ne_nil rest)
        | cons g gs => exact ⟨g, gs, rfl⟩
      rw [hg, joinSlash_cons_cons, List.nil_append, ← hg, ih]
    · rw [if_neg hc]
      cases h : splitSlash rest with
      | nil => exact absurd h (splitSlash_ne_nil rest)
      | cons g gs =>
        rw [h] at ih
        cases gs with
        | nil =>
          simp only [joinSlash] at ih ⊢
          rw [ih]
        | cons g' gs' =>
          rw [joinSlash_cons_cons] at ih
          rw [joinSlash_cons_cons, List.cons_append, ih]

lemma mem_splitSlash_no_slash :
    ∀ {l : List Char} {g : List Char}, g ∈ splitSlash l → '/' ∉ g := by
  intro l
  induction l with
  | nil =>
    intro g hg
    simp [splitSlash] at hg
    simp [hg]
  | cons c rest ih =>
    intro g hg
    simp only [splitSlash] at hg
    by_cases hc : c = '/'
    · subst hc
      rw [if_pos rfl] at hg
      rcases List.mem_cons.mp hg with h | h
      · subst h; simp
      · exact ih h
    · rw [if_neg hc] at hg
      cases h : splitSlash rest with
      | nil => exact absurd h (splitSlash_ne_nil rest)
      | cons g0 gs =>
        rw [h] at hg
        rcases List.mem_cons.mp hg with h1 | h1
        · subst h1
          intro hmem
          rcases List.mem_cons.mp hmem with h2 | h2
          · exact hc h2.symm
          · exact ih (h ▸ List.mem_cons_self g0 gs) h2
        · exact ih (h ▸ List.mem_cons.mpr (Or.inr h1))

lemma joinSlash_append : ∀ as bs : List (List Char), as ≠ [] → bs ≠ [] →
    joinSlash (as ++ bs) = joinSlash as ++ '/' :: joinSlash bs := by
  intro as
  induction as with
  | nil => intro bs ha _; exact absurd rfl ha
  | cons a as' ih =>
    intro bs _ hb
    cases as' with
    | nil =>
      cases bs with
      | nil => exact absurd rfl hb
      | cons b bs' =>
        rw [List.singleton_append, joinSlash_cons_cons]
        rfl
    | cons a' as'' =>
      calc joinSlash ((a :: a' :: as'') ++ bs)
          = joinSlash (a :: a' :: (as'' ++ bs)) := by simp
        _ = a ++ '/' :: joinSlash (a' :: (as'' ++ bs)) := joinSlash_cons_cons a a' (as'' ++ bs)
        _ = a ++ '/' :: joinSlash ((a' :: as'') ++ bs) := by rw [List.cons_append]
        _ = a ++ '/' :: (joinSlash (a' :: as'') ++ '/' :: joinSlash bs) := by
            rw [ih bs (by simp) hb]
        _ = (a ++ '/' :: joinSlash (a' :: as'')) ++ '/' :: joinSlash bs := by simp
        _ = joinSlash (a :: a' :: as'') ++ '/' :: joinSlash bs := by
            rw [joinSlash_cons_cons]

lemma joinSlash_take_drop {l : List (List Char)} {j : Nat} (h1 : 0 < j) (h2 : j < l.length) :
    joinSlash (l.take j) ++ '/' :: joinSlash (l.drop j) = joinSlash l := by
  have hta : (l.take j).length = j := by
    rw [List.length_take]; omega
  have hda : (l.drop j).length = l.length - j := List.length_drop j l
  have ha : l.take j ≠ [] := by
    intro hnil; rw [hnil] at hta; simp at hta; omega
  have hb : l.drop j ≠ [] := by
    intro hnil; rw [hnil] at hda; simp at hda; omega
  rw [← joinSlash_append _ _ ha hb, List.take_append_drop]

lemma mk_append (a b : List Char) : (⟨a⟩ : String) ++ ⟨b⟩ = ⟨a ++ b⟩ := rfl

lemma string_eta (s : String) : (⟨s.data⟩ : String) = s := rfl

lemma connect_components (p : Path) : connect_slash p.components = p.repr := by
  unfold connect_slash Path.components
  rw [List.map_map]
  have h : (String.data ∘ fun g => (⟨g⟩ : String)) = id := rfl
  rw [h, List.map_id, joinSlash_splitSlash]

/-! ## Lemmas: the legality gate -/

lemma scan_legal_eq (uni : Char → Bool) : ∀ l : List Char,
    scan_legal uni l = (l.takeWhile (fun c => c != '#')).all (is_url_part uni) := by
  intro l
  induction l with
  | nil => rfl
  | cons ch rest ih =>
    by_cases hc : ch = '#'
    · subst hc
      simp [scan_legal, List.takeWhile]
    · have hne : (ch != '#') = true := by simp [hc]
      have hceq : (ch == '#') = false := by simp [hc]
      simp only [scan_legal, List.takeWhile, hne, hceq, Bool.false_eq_true, if_false]
      cases hu : is_url_part uni ch
      · simp [hu]
      · simp [hu, ih]

lemma ensure_legal_isOk (uni : Char → Bool) (s : String) :
    (ensure_legal_package_id uni s).isOk = scan_legal uni s.data := by
  unfold ensure_legal_package_id
  cases h : scan_legal uni s.data
  · simp only [Bool.false_eq_true, if_false]
    split <;> rfl
  · rfl

lemma ensure_legal_ok (uni : Char → Bool) (s : String)
    (hgate : scan_legal uni s.data = true) :
    ensure_legal_package_id uni s = .ok () := by
  unfold ensure_legal_package_id
  rw [hgate]
  rfl

lemma ensure_legal_error_of_scan_false (uni : Char → Bool) (s : String)
    (hgate : scan_legal uni s.data = false) :
    ∃ e, ensure_legal_package_id uni s = .error e := by
  unfold ensure_legal_package_id
  rw [hgate]
  simp only [Bool.false_eq_true, if_false]
  split
  · exact ⟨_, rfl⟩
  · exact ⟨_, rfl⟩

/-! ## Lemmas: running the constructor -/

lemma new_gate_error (lv rv : Path → Option Version) (uni : Char → Bool) (s : String)
    (e : PkgIdError) (h : ensure_legal_package_id uni s = .error e) :
    PkgId.new lv rv uni s = .error e := by
  unfold PkgId.new
  rw [h]

lemma new_eq_post (lv rv : Path → Option Version) (uni : Char → Bool) (s : String)
    (hgate : scan_legal uni s.data = true) :
    PkgId.new lv rv uni s = new_post lv rv (split_pair s).1 (split_pair s).2 := by
  unfold PkgId.new new_post split_pair
  rw [ensure_legal_ok uni s hgate]
  cases hs : split_version s with
  | none => rfl
  | some pv =>
    obtain ⟨ps, v⟩ := pv
    rfl

lemma new_post_ok (lv rv : Path → Option Version) (gv : Option Version) (s' : String)
    (nm : String) (hrel : (Path.new s').is_relative = true)
    (hfn : (Path.new s').filename = some nm) :
    new_post lv rv gv s' =
      .ok ⟨Path.new s', filestem_of nm, resolve_version lv rv gv (Path.new s')⟩ := by
  unfold new_post
  dsimp only
  rw [hrel]
  simp only [Bool.not_true, Bool.false_eq_true, if_false]
  rw [hfn]
  simp only [Option.isNone_some, Bool.false_eq_true, if_false]
  unfold Path.filestem_str
  rw [hfn]
  rfl

lemma new_post_ok_inv {lv rv : Path → Option Version} {gv : Option Version} {s' : String}
    {id : PkgId} (h : new_post lv rv gv s' = .ok id) :
    (Path.new s').is_relative = true ∧
    ∃ nm, (Path.new s').filename = some nm ∧
      id = ⟨Path.new s', filestem_of nm, resolve_version lv rv gv (Path.new s')⟩ := by
  unfold new_post at h
  dsimp only at h
  cases hrel : (Path.new s').is_relative with
  | false => rw [hrel] at h; simp at h
  | true =>
    rw [hrel] at h
    simp only [Bool.not_true, Bool.false_eq_true, if_false] at h
    cases hfn : (Path.new s').filename with
    | none => rw [hfn] at h; simp at h
    | some nm =>
      rw [hfn] at h
      simp only [Option.isNone_some, Bool.false_eq_true, if_false] at h
      have hst : (Path.new s').filestem_str = some (filestem_of nm) := by
        unfold Path.filestem_str
        rw [hfn]
        rfl
      rw [hst] at h
      simp only [Except.ok.injEq] at h
      exact ⟨rfl, nm, rfl, h.symm⟩

lemma new_post_error_not_syntactic {lv rv : Path → Option Version}
    {gv : Option Version} {s' : String} {e : PkgIdError}
    (h : new_post lv rv gv s' = .error e) : e.is_syntactic = false := by
  unfold new_post at h
  dsimp only at h
  split at h
  · injection h with h'
    subst h'
    rfl
  · split at h
    · injection h with h'
      subst h'
      rfl
    · split at h
      · injection h with h'
        subst h'
        rfl
      · cases h

lemma new_ok_inv {lv rv : Path → Option Version} {uni : Char → Bool} {s : String}
    {id : PkgId} (h : PkgId.new lv rv uni s = .ok id) :
    scan_legal uni s.data = true ∧
    (Path.new (split_pair s).2).is_relative = true ∧
    ∃ nm, (Path.new (split_pair s).2).filename = some nm ∧
      id = ⟨Path.new (split_pair s).2, filestem_of nm,
            resolve_version lv rv (split_pair s).1 (Path.new (split_pair s).2)⟩ := by
  have hgate : scan_legal uni s.data = true := by
    cases hg : scan_legal uni s.data with
    | true => rfl
    | false =>
      obtain ⟨e, he⟩ := ensure_legal_error_of_scan_false uni s hg
      rw [new_gate_error lv rv uni s e he] at h
      cases h
  rw [new_eq_post lv rv uni s hgate] at h
  exact ⟨hgate, new_post_ok_inv h⟩

/-! ## Lemmas: the prefix enumerator -/

lemma dropLast_append_getLastD {α : Type} (l : List α) (h : l ≠ []) (d : α) :
    l.dropLast ++ [l.getLastD d] = l := by
  cases l with
  | nil => exact absurd rfl h
  | cons a t =>
    have hd : (a :: t).getLastD d = (a :: t).getLast h := rfl
    rw [hd, List.dropLast_append_getLast]

lemma drop_pred_eq_getLastD {α : Type} (l : List α) (h : l ≠ []) (d : α) :
    l.drop (l.length - 1) = [l.getLastD d] := by
  have key : (l.dropLast ++ [l.getLastD d]).drop l.dropLast.length = [l.getLastD d] :=
    List.drop_left _ _
  rw [dropLast_append_getLastD l h d] at key
  rw [List.length_dropLast] at key
  exact key

lemma next_of_le {st : Prefixes} (h : st.components.length ≤ 1) :
    st.next = Option.none := by
  unfold Prefixes.next
  rw [if_pos h]

lemma next_of_lt {st : Prefixes} (h : 1 < st.components.length) :
    st.next = some ((Path.new (connect_slash st.components.dropLast),
                     Path.new (connect_slash (st.components.getLastD "" :: st.remaining))),
                    ⟨st.components.dropLast, st.components.getLastD "" :: st.remaining⟩) := by
  unfold Prefixes.next
  rw [if_neg (by omega)]

lemma collect_fuel_spec : ∀ (fuel : Nat) (cs rs : List String), cs.length ≤ fuel + 1 →
    collect_fuel fuel ⟨cs, rs⟩ =
      (List.range (cs.length - 1)).map (fun k =>
        (Path.new (connect_slash (cs.take (cs.length - 1 - k))),
         Path.new (connect_slash (cs.drop (cs.length - 1 - k) ++ rs)))) := by
  intro fuel
  induction fuel with
  | zero =>
    intro cs rs h
    have h0 : cs.length - 1 = 0 := by omega
    rw [h0]
    rfl
  | succ n ih =>
    intro cs rs h
    by_cases hlen : cs.length ≤ 1
    · have h0 : cs.length - 1 = 0 := by omega
      rw [h0]
      show collect_fuel (n + 1) ⟨cs, rs⟩ = []
      unfold collect_fuel
      rw [next_of_le hlen]
    · push_neg at hlen
      have hne : cs ≠ [] := by
        intro hnil; subst hnil; simp at hlen
      show collect_fuel (n + 1) ⟨cs, rs⟩ = _
      unfold collect_fuel
      rw [next_of_lt hlen]
      dsimp only
      rw [ih cs.dropLast (cs.getLastD "" :: rs)
        (by rw [List.length_dropLast]; omega)]
      have hdl : cs.dropLast.length = cs.length - 1 := List.length_dropLast cs
      rw [hdl]
      have hrange : List.range (cs.length - 1) =
          0 :: (List.range (cs.length - 2)).map (· + 1) := by
        rw [show cs.length - 1 = (cs.length - 2) + 1 by omega, List.range_succ_eq_map]
      rw [hrange, List.map_cons, List.map_map]
      congr 1
      · have ht : cs.take (cs.length - 1 - 0) = cs.dropLast := by
          rw [Nat.sub_zero, List.dropLast_eq_take]
        have hd : cs.drop (cs.length - 1 - 0) ++ rs = cs.getLastD "" :: rs := by
          rw [Nat.sub_zero, drop_pred_eq_getLastD cs hne ""]
          rfl
        rw [ht, hd]
      · apply List.map_congr_left
        intro k hk
        have hk2 : k < cs.length - 2 := List.mem_range.mp hk
        have e1 : cs.length - 1 - 1 - k = cs.length - 2 - k := by omega
        have e2 : cs.length - 1 - (k + 1) = cs.length - 2 - k := by omega
        have hj1 : 1 ≤ cs.length - 2 - k := by omega
        have hj2 : cs.length - 2 - k ≤ cs.length - 1 := by omega
        have htake : cs.dropLast.take (cs.length - 2 - k) = cs.take (cs.length - 2 - k) := by
          rw [List.dropLast_eq_take, List.take_take, Nat.min_eq_left hj2]
        have hdrop : cs.drop (cs.length - 2 - k) ++ rs =
            cs.dropLast.drop (cs.length - 2 - k) ++ (cs.getLastD "" :: rs) := by
          have key : (cs.dropLast ++ [cs.getLastD ""]).drop (cs.length - 2 - k) =
              cs.dropLast.drop (cs.length - 2 - k) ++ [cs.getLastD ""] :=
            List.drop_append_of_le_length (by rw [List.length_dropLast]; omega)
          rw [dropLast_append_getLastD cs hne ""] at key
          rw [key, List.append_assoc, List.singleton_append]
        dsimp only [Function.comp]
        rw [e1, e2, htake, hdrop]

/-! ## Lemmas: the version split and the path part -/

lemma no_hash_takeWhile {l : List Char} (h : '#' ∉ l) :
    l.takeWhile (fun c => c != '#') = l := by
  apply List.takeWhile_eq_self_iff.mpr
  intro x hx
  simp only [bne_iff_ne, ne_eq]
  intro he
  exact h (he ▸ hx)

lemma takeWhile_append_hash {a b : List Char} (h : '#' ∉ a) :
    (a ++ '#' :: b).takeWhile (fun c => c != '#') = a := by
  induction a with
  | nil => simp [List.takeWhile_cons]
  | cons x xs ih =>
    have hx : (x != '#') = true := by
      simp only [bne_iff_ne, ne_eq]
      intro he
      exact h (he ▸ List.mem_cons_self x xs)
    rw [List.cons_append, List.takeWhile_cons, hx,
      ih (fun hm => h (List.mem_cons.mpr (Or.inr hm)))]
    simp

lemma dropWhile_append_hash {a b : List Char} (h : '#' ∉ a) :
    (a ++ '#' :: b).dropWhile (fun c => c != '#') = '#' :: b := by
  induction a with
  | nil => simp [List.dropWhile_cons]
  | cons x xs ih =>
    have hx : (x != '#') = true := by
      simp only [bne_iff_ne, ne_eq]
      intro he
      exact h (he ▸ List.mem_cons_self x xs)
    rw [List.cons_append, List.dropWhile_cons, hx]
    simp only [if_true]
    exact ih (fun hm => h (List.mem_cons.mpr (Or.inr hm)))

lemma split_version_spec (s : String) :
    ('#' ∉ s.data ∧ split_version s = Option.none) ∨
    ('#' ∈ s.data ∧ split_version s =
        some (⟨s.data.takeWhile (fun c => c != '#')⟩,
              ⟨(s.data.dropWhile (fun c => c != '#')).tail⟩)) := by
  unfold split_version
  by_cases hc : s.data.contains '#' = true
  · right
    refine ⟨List.elem_iff.mp hc, ?_⟩
    rw [if_pos hc]
  · left
    refine ⟨fun hm => hc (List.elem_iff.mpr hm), ?_⟩
    rw [if_neg hc]

lemma split_version_none_of_no_hash {s : String} (h : '#' ∉ s.data) :
    split_version s = Option.none := by
  rcases split_version_spec s with ⟨_, he⟩ | ⟨hm, _⟩
  · exact he
  · exact absurd hm h

lemma split_version_append_hash (s' t : String) (h : '#' ∉ s'.data) :
    split_version (s' ++ "#" ++ t) = some (s', t) := by
  have hsharp : ("#" : String).data = ['#'] := rfl
  have hdata : (s' ++ "#" ++ t).data = s'.data ++ '#' :: t.data := by
    rw [String.data_append, String.data_append, hsharp, List.append_assoc,
      List.singleton_append]
  unfold split_version
  rw [hdata]
  have hc : (s'.data ++ '#' :: t.data).contains '#' = true :=
    List.elem_iff.mpr (List.mem_append.mpr (Or.inr (List.mem_cons_self _ _)))
  rw [if_pos hc, takeWhile_append_hash h, dropWhile_append_hash h]
  rfl

lemma split_pair_snd_data (s : String) :
    (split_pair s).2.data = s.data.takeWhile (fun c => c != '#') := by
  rcases split_version_spec s with ⟨hn, he⟩ | ⟨_, he⟩
  · unfold split_pair
    rw [he]
    exact (no_hash_takeWhile hn).symm
  · unfold split_pair
    rw [he]

lemma path_part_no_hash (s : String) : '#' ∉ (split_pair s).2.data := by
  rw [split_pair_snd_data]
  intro hm
  have := List.mem_takeWhile_imp hm
  simp at this

lemma path_part_legal {uni : Char → Bool} {s : String}
    (hgate : scan_legal uni s.data = true) :
    ∀ c ∈ (split_pair s).2.data, is_url_part uni c = true := by
  rw [scan_legal_eq] at hgate
  rw [split_pair_snd_data]
  intro c hc
  exact List.all_eq_true.mp hgate c hc

lemma split_pair_fst (s : String) :
    (split_pair s).1 = Option.none ∨
    ∃ v, (split_pair s).1 = some (Version.explicit v) := by
  unfold split_pair
  cases split_version s with
  | none => exact Or.inl rfl
  | some pv => exact Or.inr ⟨pv.2, rfl⟩

lemma split_pair_of_none {s : String} (h : split_version s = Option.none) :
    split_pair s = (Option.none, s) := by
  unfold split_pair
  rw [h]

lemma split_pair_of_some {s p v : String} (h : split_version s = some (p, v)) :
    split_pair s = (some (Version.explicit v), p) := by
  unfold split_pair
  rw [h]

/-! ## Lemmas: file stems, components, slashes -/

lemma filestem_of_no_dot {name : String} (h : '.' ∉ name.data) :
    filestem_of name = name := by
  unfold filestem_of
  have hd : name.data.reverse.dropWhile (fun c => c != '.') = [] := by
    rw [List.dropWhile_eq_nil_iff]
    intro a ha
    simp only [bne_iff_ne, ne_eq]
    intro he
    exact h (he ▸ List.mem_reverse.mp ha)
  rw [hd]

lemma mem_filestem_of {name : String} {c : Char}
    (hc : c ∈ (filestem_of name).data) : c ∈ name.data := by
  unfold filestem_of at hc
  cases hd : name.data.reverse.dropWhile (fun c => c != '.') with
  | nil => rw [hd] at hc; exact hc
  | cons x rest =>
    rw [hd] at hc
    cases rest with
    | nil => exact hc
    | cons y rest' =>
      dsimp only at hc
      have h1 : c ∈ y :: rest' := List.mem_reverse.mp hc
      have hsub : (x :: y :: rest').Sublist name.data.reverse := by
        rw [← hd]
        exact List.dropWhile_sublist _
      have h2 : c ∈ x :: y :: rest' := List.mem_cons.mpr (Or.inr h1)
      exact List.mem_reverse.mp (hsub.subset h2)

lemma dropWhile_nondot_two_iff (l : List Char) :
    2 ≤ (l.reverse.dropWhile (fun c => c != '.')).length ↔ '.' ∈ l.tail := by
  cases l with
  | nil => simp
  | cons c t =>
    rw [List.reverse_cons, List.dropWhile_append]
    simp only [List.tail_cons]
    by_cases hall : '.' ∈ t
    · have hne : t.reverse.dropWhile (fun c => c != '.') ≠ [] := by
        rw [Ne, List.dropWhile_eq_nil_iff]
        intro h
        have h2 := h '.' (List.mem_reverse.mpr hall)
        simp at h2
      have hfalse : (t.reverse.dropWhile (fun c => c != '.')).isEmpty = false := by
        cases hemp : (t.reverse.dropWhile (fun c => c != '.')).isEmpty with
        | false => rfl
        | true => exact absurd (List.isEmpty_iff.mp hemp) hne
      simp only [hfalse, Bool.false_eq_true, if_false]
      rw [List.length_append]
      have hpos : 0 < (t.reverse.dropWhile (fun c => c != '.')).length :=
        List.length_pos.mpr hne
      simp only [List.length_singleton]
      constructor
      · intro _
        exact hall
      · intro _
        omega
    · have hnil : t.reverse.dropWhile (fun c => c != '.') = [] := by
        rw [List.dropWhile_eq_nil_iff]
        intro a ha
        simp only [bne_iff_ne, ne_eq]
        intro he
        exact hall (he ▸ List.mem_reverse.mp ha)
      simp only [hnil, List.isEmpty_nil, if_true]
      constructor
      · intro h2
        exfalso
        have hle : ([c].dropWhile (fun c => c != '.')).length ≤ [c].length :=
          (List.dropWhile_sublist _).length_le
        simp only [List.length_singleton] at hle
        omega
      · intro hmem
        exact absurd hmem hall

lemma filestem_of_eq_self_iff (name : String) :
    filestem_of name = name ↔ '.' ∉ name.data.tail := by
  have hlen := dropWhile_nondot_two_iff name.data
  constructor
  · intro heq hdot
    have h2 := hlen.mpr hdot
    cases hd : name.data.reverse.dropWhile (fun c => c != '.') with
    | nil =>
      rw [hd] at h2
      simp at h2
    | cons x rest =>
      cases rest with
      | nil =>
        rw [hd] at h2
        simp at h2
      | cons y rest' =>
        unfold filestem_of at heq
        rw [hd] at heq
        dsimp only at heq
        have hdata : (y :: rest').reverse = name.data := congrArg String.data heq
        have hlen1 : rest'.length + 1 = name.data.length := by
          rw [← hdata]
          simp
        have hsub : (x :: y :: rest').length ≤ name.data.reverse.length := by
          rw [← hd]
          exact (List.dropWhile_sublist _).length_le
        rw [List.length_reverse] at hsub
        simp only [List.length_cons] at hsub
        omega
  · intro hnot
    have h2 : ¬ 2 ≤ (name.data.reverse.dropWhile (fun c => c != '.')).length :=
      fun h => hnot (hlen.mp h)
    unfold filestem_of
    cases hd : name.data.reverse.dropWhile (fun c => c != '.') with
    | nil => rfl
    | cons x rest =>
      cases rest with
      | nil => rfl
      | cons y rest' =>
        rw [hd] at h2
        exact absurd (by simp only [List.length_cons]; omega) h2

lemma filename_some_inv {p : Path} {nm : String} (h : p.filename = some nm) :
    p.components.getLast? = some nm ∧ nm ≠ "" := by
  unfold Path.filename at h
  cases hg : p.components.getLast? with
  | none => rw [hg] at h; cases h
  | some c =>
    rw [hg] at h
    dsimp only at h
    by_cases hc : c = ""
    · rw [if_pos hc] at h; cases h
    · rw [if_neg hc] at h
      injection h with h'
      subst h'
      exact ⟨rfl, hc⟩

lemma mem_components_no_slash {p : Path} {g : String} (h : g ∈ p.components) :
    '/' ∉ g.data := by
  unfold Path.components at h
  obtain ⟨g', hg', rfl⟩ := List.mem_map.mp h
  exact mem_splitSlash_no_slash hg'

lemma slash_mem_repr_of_two {p : Path} (h : 2 ≤ p.components.length) :
    '/' ∈ p.repr.data := by
  have hc := connect_components p
  rw [← hc]
  unfold connect_slash
  dsimp only
  have hlen : 2 ≤ (p.components.map String.data).length := by
    rw [List.length_map]; exact h
  cases hm : p.components.map String.data with
  | nil => rw [hm] at hlen; simp at hlen
  | cons g1 t =>
    cases t with
    | nil => rw [hm] at hlen; simp at hlen
    | cons g2 t' =>
      rw [joinSlash_cons_cons]
      exact List.mem_append.mpr (Or.inr (List.mem_cons_self _ _))

/-! ## Lemmas: stepping the URL-shape heuristic -/

lemma go_cons (uni : Char → Bool) (substr : List Char) (rest : List (List Char))
    (is_url : Bool) (seen : Nat) (result : Option String) :
    drop_url_scheme_go uni (substr :: rest) is_url seen result =
      match url_scheme_step uni is_url seen result substr with
      | .error e => .error e
      | .ok st => drop_url_scheme_go uni rest st.1 st.2.1 st.2.2 := rfl

lemma step_seen_ne_one {uni : Char → Bool} {is_url : Bool} {seen : Nat}
    {result : Option String} {substr : List Char} (h : (seen == 1) = false) :
    url_scheme_step uni is_url seen result substr =
      .ok (is_url && substr.all (is_url_part uni), seen + 1, result) := by
  unfold url_scheme_step
  dsimp only
  rw [h]
  simp only [Bool.false_eq_true, if_false]

lemma step_seen_one_ok {uni : Char → Bool} {is_url : Bool} {result : Option String}
    {substr : List Char} {r : String}
    (hs : slice_to (trim_right_non_dot ⟨substr⟩)
        (uint_minus_one (trim_right_non_dot ⟨substr⟩).data.length) = .ok r) :
    url_scheme_step uni is_url 1 result substr =
      .ok (is_url && substr.all (is_url_part uni), 1 + 1, some r) := by
  unfold url_scheme_step
  dsimp only
  rw [if_pos (show ((1 : Nat) == 1) = true from rfl)]
  rw [hs]

lemma trim_of_no_dot {b : List Char} (h : '.' ∉ b) :
    trim_right_non_dot ⟨b⟩ = ⟨[]⟩ := by
  have hd : b.reverse.dropWhile (fun c => c != '.') = [] := by
    rw [List.dropWhile_eq_nil_iff]
    intro a ha
    simp only [bne_iff_ne, ne_eq]
    intro he
    exact h (he ▸ List.mem_reverse.mp ha)
  show (⟨(b.reverse.dropWhile (fun c => c != '.')).reverse⟩ : String) = ⟨[]⟩
  rw [hd]
  rfl

lemma slice_to_empty_fail :
    slice_to ⟨[]⟩ (uint_minus_one (⟨[]⟩ : String).data.length) =
      .error .sliceOutOfRange := by decide

lemma step_slice_fail {uni : Char → Bool} {is_url : Bool} {result : Option String}
    {b : List Char} (hnodot : '.' ∉ b) :
    url_scheme_step uni is_url 1 result b = .error .sliceOutOfRange := by
  unfold url_scheme_step
  dsimp only
  rw [trim_of_no_dot hnodot, slice_to_empty_fail]
  simp

lemma go_slice_fail (uni : Char → Bool) (a b : List Char) (rest : List (List Char))
    (is_url : Bool) (res : Option String) (hnodot : '.' ∉ b) :
    drop_url_scheme_go uni (a :: b :: rest) is_url 0 res = .error .sliceOutOfRange := by
  rw [go_cons, step_seen_ne_one (show ((0 : Nat) == 1) = false from rfl)]
  dsimp only
  rw [go_cons]
  simp only [Nat.zero_add]
  rw [step_slice_fail hnodot]

lemma drop_url_scheme_slice_fail {uni : Char → Bool} {s : String} {a b : List Char}
    {rest : List (List Char)} (hsegs : split_scheme s.data = a :: b :: rest)
    (hnodot : '.' ∉ b) :
    drop_url_scheme uni s = .error .sliceOutOfRange := by
  unfold drop_url_scheme
  dsimp only
  rw [hsegs, go_slice_fail uni a b rest true Option.none hnodot]

lemma ensure_legal_slice_fail {uni : Char → Bool} {s : String}
    (hscan : scan_legal uni s.data = false) {a b : List Char} {rest : List (List Char)}
    (hsegs : split_scheme s.data = a :: b :: rest) (hnodot : '.' ∉ b) :
    ensure_legal_package_id uni s = .error .sliceOutOfRange := by
  unfold ensure_legal_package_id
  rw [hscan]
  simp only [Bool.false_eq_true, if_false]
  rw [drop_url_scheme_slice_fail hsegs hnodot]

/-! ## Lemmas: the error branches of the constructor -/

lemma new_post_abs (lv rv : Path → Option Version) (gv : Option Version) (s' : String)
    (h : (Path.new s').is_relative = false) :
    new_post lv rv gv s' = .error (.badPkgId (Path.new s') "absolute pkgid") := by
  unfold new_post
  dsimp only
  rw [h]
  rfl

lemma new_post_nofn (lv rv : Path → Option Version) (gv : Option Version) (s' : String)
    (h1 : (Path.new s').is_relative = true)
    (h2 : (Path.new s').filename = Option.none) :
    new_post lv rv gv s' = .error (.badPkgId (Path.new s') "0-length pkgid") := by
  unfold new_post
  dsimp only
  rw [h1]
  simp only [Bool.not_true, Bool.false_eq_true, if_false]
  rw [h2]
  rfl

lemma collect_spec (p : Path) :
    (prefixes_iter p).collect =
      (List.range (p.components.length - 1)).map (fun k =>
        (Path.new (connect_slash (p.components.take (p.components.length - 1 - k))),
         Path.new (connect_slash (p.components.drop (p.components.length - 1 - k))))) := by
  unfold Prefixes.collect prefixes_iter
  dsimp only
  rw [collect_fuel_spec p.components.length p.components [] (by omega)]
  simp only [List.append_nil]

/-! ## The claims -/

/-- C5: legality validation scans left to right and stops at the first `#`:
the gate succeeds exactly when every character strictly before the first `#`
(or every character, when no `#` occurs) is accepted by the classifier, so
characters after the first `#` are never subjected to character validation;
a gate failure is exactly how construction fails syntactically — it
propagates to `PkgId.new` unchanged, and every syntactic failure of
`PkgId.new` is a gate failure. -/
theorem C5_legality_gate (uni : Char → Bool) (s : String) :
    ((ensure_legal_package_id uni s).isOk =
      (s.data.takeWhile (fun c => c != '#')).all (is_url_part uni)) ∧
    (∀ lv rv : Path → Option Version, ∀ e, ensure_legal_package_id uni s = .error e →
      PkgId.new lv rv uni s = .error e) ∧
    (∀ lv rv : Path → Option Version, ∀ e, PkgId.new lv rv uni s = .error e →
      e.is_syntactic = true → ensure_legal_package_id uni s = .error e) := by
  refine ⟨by rw [ensure_legal_isOk, scan_legal_eq], ?_, ?_⟩
  · intro lv rv e he
    exact new_gate_error lv rv uni s e he
  · intro lv rv e h hsyn
    cases hg : scan_legal uni s.data with
    | false =>
      obtain ⟨e', he'⟩ := ensure_legal_error_of_scan_false uni s hg
      rw [new_gate_error lv rv uni s e' he'] at h
      injection h with h'
      subst h'
      exact he'
    | true =>
      rw [new_eq_post lv rv uni s hg] at h
      rw [new_post_error_not_syntactic h] at hsyn
      cases hsyn

/-- C5 (witness): the input `a b` has an illegal space before any `#`; the
gate rejects with no URL suggestion and construction fails with exactly that
rejection. -/
theorem C5_legality_gate_witness :
    PkgId.new no_version_lookup no_version_lookup ascii_uni "a b" =
      .error (.parseFail "a b" Option.none) :=
  (C5_legality_gate ascii_uni "a b").2.1 no_version_lookup no_version_lookup
    (.parseFail "a b" Option.none) (by decide)

/-- C1: for an accepted input the resolved version follows the strict
short-circuit precedence — the explicit tag from the version splitter if
present, else the local probe, else the remote probe, else the `none`
version — and when the gate and the structural checks pass, absence of all
three layers still yields a constructed identifier rather than an error. -/
theorem C1_version_resolution (lv rv : Path → Option Version) (uni : Char → Bool)
    (s : String) :
    (∀ id, PkgId.new lv rv uni s = .ok id →
      id.version = spec_version_precedence lv rv s) ∧
    (scan_legal uni s.data = true →
      (Path.new (split_pair s).2).is_relative = true →
      (Path.new (split_pair s).2).filename.isSome = true →
      (PkgId.new lv rv uni s).isOk = true) := by
  constructor
  · intro id h
    obtain ⟨hg, hrel, nm, hfn, hid⟩ := new_ok_inv h
    rw [hid]
    unfold spec_version_precedence
    dsimp only
    cases hs : split_version s with
    | some pv =>
      obtain ⟨p, v⟩ := pv
      simp only [split_pair_of_some hs]
      rfl
    | none =>
      simp only [split_pair_of_none hs]
      rfl
  · intro hg hrel hfs
    rw [new_eq_post lv rv uni s hg]
    obtain ⟨nm, hnm⟩ := Option.isSome_iff_exists.mp hfs
    rw [new_post_ok lv rv (split_pair s).1 (split_pair s).2 nm hrel hnm]
    rfl

/-- C1 (witness): on `foo#1.2` construction succeeds and the version is the
explicit tag `1.2`, the first layer of the precedence. -/
theorem C1_version_resolution_witness :
    (PkgId.new no_version_lookup no_version_lookup ascii_uni "foo#1.2").isOk = true ∧
    (⟨⟨"foo"⟩, "foo", Version.explicit "1.2"⟩ : PkgId).version =
      spec_version_precedence no_version_lookup no_version_lookup "foo#1.2" ∧
    spec_version_precedence no_version_lookup no_version_lookup "foo#1.2" =
      Version.explicit "1.2" :=
  ⟨(C1_version_resolution no_version_lookup no_version_lookup ascii_uni "foo#1.2").2
      (by decide) (by decide) (by decide),
   (C1_version_resolution no_version_lookup no_version_lookup ascii_uni "foo#1.2").1
      ⟨⟨"foo"⟩, "foo", Version.explicit "1.2"⟩ (by decide),
   by decide⟩

/-- C6: after version splitting, construction raises the recoverable
`bad_pkg_id` condition with reason `absolute pkgid` when the path part is
absolute and with reason `0-length pkgid` when it has no final component;
with no handler installed the condition propagates as the failure of
construction (the error side of the model). -/
theorem C6_bad_pkg_id (lv rv : Path → Option Version) (uni : Char → Bool) (s : String)
    (hgate : scan_legal uni s.data = true) :
    ((Path.new (split_pair s).2).is_relative = false →
      PkgId.new lv rv uni s =
        .error (.badPkgId (Path.new (split_pair s).2) "absolute pkgid")) ∧
    ((Path.new (split_pair s).2).is_relative = true →
      (Path.new (split_pair s).2).filename = Option.none →
      PkgId.new lv rv uni s =
        .error (.badPkgId (Path.new (split_pair s).2) "0-length pkgid")) := by
  rw [new_eq_post lv rv uni s hgate]
  constructor
  · intro h
    exact new_post_abs lv rv (split_pair s).1 (split_pair s).2 h
  · intro h1 h2
    exact new_post_nofn lv rv (split_pair s).1 (split_pair s).2 h1 h2

/-- C6 (witness): `/foo/bar` raises `bad_pkg_id("absolute pkgid")` and
`foo/` (whose path part has no final component) raises
`bad_pkg_id("0-length pkgid")`. -/
theorem C6_bad_pkg_id_witness :
    PkgId.new no_version_lookup no_version_lookup ascii_uni "/foo/bar" =
      .error (.badPkgId ⟨"/foo/bar"⟩ "absolute pkgid") ∧
    PkgId.new no_version_lookup no_version_lookup ascii_uni "foo/" =
      .error (.badPkgId ⟨"foo/"⟩ "0-length pkgid") :=
  ⟨(C6_bad_pkg_id no_version_lookup no_version_lookup ascii_uni "/foo/bar"
      (by decide)).1 (by decide),
   (C6_bad_pkg_id no_version_lookup no_version_lookup ascii_uni "foo/"
      (by decide)).2 (by decide) (by decide)⟩

/-- C8: the hash tag is exactly `<path>-<digest>-<version>`, where the digest
is produced by feeding the concatenation of the path string and the version
string into the streaming hash helper (default engine state, one write,
finalize), and the version string is empty when the version is absent. -/
theorem C8_hash_tag {σ : Type} (engine : Streaming σ) (id : PkgId) :
    (PkgId.hash engine id =
      id.path.repr ++ "-" ++
        engine.result_str (engine.write engine.default_state
          (str_bytes (id.path.repr ++ id.version.to_str))) ++ "-" ++
        id.version.to_str) ∧
    (id.version = Version.none → id.version.to_str = "") := by
  constructor
  · rfl
  · intro h
    rw [h]
    rfl

/-- C8 (witness): the absent version renders as the empty string in the tag,
at a concrete engine and identifier. -/
theorem C8_hash_tag_witness :
    (⟨⟨"foo"⟩, "foo", Version.none⟩ : PkgId).version.to_str = "" :=
  (C8_hash_tag list_engine ⟨⟨"foo"⟩, "foo", Version.none⟩).2 rfl

/-- C3: for a path with `n ≥ 2` components the prefix enumerator yields
exactly `n - 1` pairs, in order — the pair of index `k` splits off the last
`k + 1` components, so longer ancestors come first — and joining any yielded
pair's two parts with `/` reconstructs the original path; with `n ≤ 1` it
yields nothing. -/
theorem C3_prefix_enumeration (p : Path) :
    (2 ≤ p.components.length →
      ((prefixes_iter p).collect =
        (List.range (p.components.length - 1)).map (fun k =>
          (Path.new (connect_slash (p.components.take (p.components.length - 1 - k))),
           Path.new (connect_slash (p.components.drop (p.components.length - 1 - k))))) ∧
       (prefixes_iter p).collect.length = p.components.length - 1 ∧
       ∀ pr ∈ (prefixes_iter p).collect, pr.1.repr ++ "/" ++ pr.2.repr = p.repr)) ∧
    (p.components.length ≤ 1 → (prefixes_iter p).collect = []) := by
  constructor
  · intro h2
    refine ⟨collect_spec p, ?_, ?_⟩
    · rw [collect_spec p, List.length_map, List.length_range]
    · intro pr hpr
      rw [collect_spec p] at hpr
      obtain ⟨k, hk, hpr⟩ := List.mem_map.mp hpr
      have hkr : k < p.components.length - 1 := List.mem_range.mp hk
      rw [← hpr]
      show connect_slash (p.components.take (p.components.length - 1 - k)) ++ "/" ++
        connect_slash (p.components.drop (p.components.length - 1 - k)) = p.repr
      have hj1 : 0 < p.components.length - 1 - k := by omega
      have hj2 : p.components.length - 1 - k < p.components.length := by omega
      have hstep : connect_slash (p.components.take (p.components.length - 1 - k)) ++ "/" ++
          connect_slash (p.components.drop (p.components.length - 1 - k)) =
          ⟨(joinSlash ((p.components.take (p.components.length - 1 - k)).map String.data) ++
            ['/']) ++
            joinSlash ((p.components.drop (p.components.length - 1 - k)).map String.data)⟩ :=
        rfl
      rw [hstep, List.append_assoc, List.singleton_append, List.map_take, List.map_drop]
      have hj2' : p.components.length - 1 - k < (p.components.map String.data).length := by
        rw [List.length_map]
        exact hj2
      rw [joinSlash_take_drop hj1 hj2']
      exact connect_components p
  · intro h1
    rw [collect_spec p]
    have h0 : p.components.length - 1 = 0 := by omega
    rw [h0]
    rfl

/-- C3 (witness): `github.com/a/b` has three components and its enumeration
has length two. -/
theorem C3_prefix_enumeration_witness :
    2 ≤ (Path.new "github.com/a/b").components.length ∧
    (prefixes_iter (Path.new "github.com/a/b")).collect.length =
      (Path.new "github.com/a/b").components.length - 1 :=
  ⟨by decide,
   ((C3_prefix_enumeration (Path.new "github.com/a/b")).1 (by decide)).2.1⟩

/-- C4 (the code evaluated at the failing input): from `a.b` construction
succeeds with short name `a` (the stem) and path `a.b`; the path has a single
component and the prefix enumerator yields nothing, yet `is_complex` returns
true because the byte-encoded short name differs from the byte-encoded path —
contradicting the claim and the implementation's own doc comment (`True if
the ID has multiple components`). -/
theorem C4_is_complex_failing_input :
    PkgId.new no_version_lookup no_version_lookup ascii_uni "a.b" =
      .ok ⟨⟨"a.b"⟩, "a", Version.none⟩ ∧
    (⟨⟨"a.b"⟩, "a", Version.none⟩ : PkgId).is_complex = true ∧
    (Path.new "a.b").components.length = 1 ∧
    (prefixes_iter (Path.new "a.b")).collect = [] :=
  ⟨by decide, by decide, by decide, by decide⟩

/-- C2 (counterexample): the identifier constructed from `a.b` stores short
name `a`, while the last component of its path is `a.b` — the stored short
name is the component's stem, not the component. -/
theorem C2_short_name_counterexample :
    PkgId.new no_version_lookup no_version_lookup ascii_uni "a.b" =
      .ok ⟨⟨"a.b"⟩, "a", Version.none⟩ ∧
    (Path.new "a.b").components.getLast? = some "a.b" ∧
    ("a" : String) ≠ "a.b" :=
  ⟨by decide, by decide, by decide⟩

/-- C2 (amended): for every identifier produced by the constructor, the
stored short name equals the stem of the last component of the stored path —
the component with everything from its last `.` removed, where a `.` in first
position does not begin an extension — and therefore equals the last
component itself exactly when that component contains no `.` beyond its
first character. -/
theorem C2_short_name_amended (lv rv : Path → Option Version) (uni : Char → Bool)
    (s : String) (id : PkgId) (h : PkgId.new lv rv uni s = .ok id) :
    ∃ name, id.path.filename = some name ∧
      id.path.components.getLast? = some name ∧
      id.short_name = filestem_of name ∧
      (id.short_name = name ↔ '.' ∉ name.data.tail) := by
  obtain ⟨hg, hrel, nm, hfn, hid⟩ := new_ok_inv h
  rw [hid]
  exact ⟨nm, hfn, (filename_some_inv hfn).1, rfl, filestem_of_eq_self_iff nm⟩

/-- C2 (witness): on `a/b.c` the last component is `b.c` and the stored
short name is its stem `b`, unequal to the component, whose `.` sits past
the first character. -/
theorem C2_short_name_amended_witness :
    ∃ name, (Path.new "a/b.c").filename = some name ∧
      (Path.new "a/b.c").components.getLast? = some name ∧
      ("b" : String) = filestem_of name ∧
      (("b" : String) = name ↔ '.' ∉ name.data.tail) :=
  C2_short_name_amended no_version_lookup no_version_lookup ascii_uni "a/b.c"
    ⟨⟨"a/b.c"⟩, "b", Version.none⟩ (by decide)

/-- C7 (counterexample): on `http://example.org/x/y.tar.gz` the heuristic
strips only the final `.gz`, so the suggestion sent to the error sink is
`example.org/x/y.tar` — not `example.org/x/y` as the claim states. -/
theorem C7_url_hint_counterexample :
    PkgId.new no_version_lookup no_version_lookup ascii_uni
        "http://example.org/x/y.tar.gz" =
      .error (.parseFail "http://example.org/x/y.tar.gz"
        (some "example.org/x/y.tar")) ∧
    PkgId.new no_version_lookup no_version_lookup ascii_uni
        "http://example.org/x/y.tar.gz" ≠
      .error (.parseFail "http://example.org/x/y.tar.gz"
        (some "example.org/x/y")) :=
  ⟨by decide, by decide⟩

/-- C7 (amended): construction on `http://example.org/x/y.tar.gz` is
rejected, and before failing the error sink receives a diagnostic suggesting
the candidate `example.org/x/y.tar` — the URL scheme removed and only the
final `.gz` extension stripped from the segment after `://`; this holds for
every Unicode table and version collaborator. -/
theorem C7_url_hint_amended (lv rv : Path → Option Version) (uni : Char → Bool) :
    PkgId.new lv rv uni "http://example.org/x/y.tar.gz" =
      .error (.parseFail "http://example.org/x/y.tar.gz"
        (some "example.org/x/y.tar")) := by
  have hscan : scan_legal uni "http://example.org/x/y.tar.gz".data = false := by
    have hd : "http://example.org/x/y.tar.gz".data =
        ['h','t','t','p',':','/','/','e','x','a','m','p','l','e','.','o','r','g',
         '/','x','/','y','.','t','a','r','.','g','z'] := rfl
    rw [hd]
    simp +decide [scan_legal, is_url_part]
  have hsegs : split_scheme "http://example.org/x/y.tar.gz".data =
      ["http".data, "example.org/x/y.tar.gz".data] := by decide
  have hall1 : "http".data.all (is_url_part uni) = true := by
    simp +decide [is_url_part]
  have hall2 : "example.org/x/y.tar.gz".data.all (is_url_part uni) = true := by
    simp +decide [is_url_part]
  have hstep1 : url_scheme_step uni true 0 Option.none "http".data =
      .ok (true, 1, Option.none) := by
    rw [step_seen_ne_one (show ((0 : Nat) == 1) = false from rfl), hall1]
    rfl
  have htrim : trim_right_non_dot ⟨"example.org/x/y.tar.gz".data⟩ =
      "example.org/x/y.tar." := by decide
  have hslice : slice_to "example.org/x/y.tar."
      (uint_minus_one "example.org/x/y.tar.".data.length) =
      .ok "example.org/x/y.tar" := by decide
  have hs2 : slice_to (trim_right_non_dot ⟨"example.org/x/y.tar.gz".data⟩)
      (uint_minus_one
        (trim_right_non_dot ⟨"example.org/x/y.tar.gz".data⟩).data.length) =
      .ok "example.org/x/y.tar" := by
    rw [htrim]
    exact hslice
  have hstep2 : url_scheme_step uni true 1 Option.none "example.org/x/y.tar.gz".data =
      .ok (true, 2, some "example.org/x/y.tar") := by
    rw [step_seen_one_ok hs2, hall2]
    rfl
  have hgo : drop_url_scheme_go uni ["http".data, "example.org/x/y.tar.gz".data]
      true 0 Option.none = .ok (true, 2, some "example.org/x/y.tar") := by
    rw [go_cons, hstep1]
    dsimp only
    rw [go_cons, hstep2]
    rfl
  have hurl : drop_url_scheme uni "http://example.org/x/y.tar.gz" =
      .ok (some "example.org/x/y.tar") := by
    unfold drop_url_scheme
    dsimp only
    rw [hsegs, hgo]
    rfl
  have hens : ensure_legal_package_id uni "http://example.org/x/y.tar.gz" =
      .error (.parseFail "http://example.org/x/y.tar.gz"
        (some "example.org/x/y.tar")) := by
    unfold ensure_legal_package_id
    rw [hscan]
    simp only [Bool.false_eq_true, if_false]
    rw [hurl]
  exact new_gate_error lv rv uni "http://example.org/x/y.tar.gz" _ hens

/-- C10: when a syntactically rejected input splits on `://` into at least
two segments, every segment character passes the classifier, and the segment
immediately after the first `://` contains no `.`, the extension-trimming
step empties that segment and slices it at the wrapped index `length - 1`;
construction aborts inside the heuristic with the out-of-range slice failure
rather than failing with the plain parse-failure diagnostic. -/
theorem C10_slice_abort (uni : Char → Bool) (lv rv : Path → Option Version)
    (s : String) (hrej : scan_legal uni s.data = false)
    (hsegs : ∃ a b rest, split_scheme s.data = a :: b :: rest ∧ '.' ∉ b)
    (_hchars : ∀ seg ∈ split_scheme s.data, ∀ c ∈ seg, is_url_part uni c = true) :
    PkgId.new lv rv uni s = .error .sliceOutOfRange ∧
    ∀ sug, PkgId.new lv rv uni s ≠ .error (.parseFail s sug) := by
  obtain ⟨a, b, rest, hs, hnd⟩ := hsegs
  have hens := ensure_legal_slice_fail hrej hs hnd
  have hnew := new_gate_error lv rv uni s _ hens
  refine ⟨hnew, ?_⟩
  intro sug hcontra
  rw [hnew] at hcontra
  injection hcontra with h'
  cases h'

/-- C10 (witness): `http://foo` is rejected by the gate (at `:`), its second
segment `foo` contains no `.`, and construction aborts with the slice
failure. -/
theorem C10_slice_abort_witness :
    PkgId.new no_version_lookup no_version_lookup ascii_uni "http://foo" =
      .error .sliceOutOfRange :=
  (C10_slice_abort ascii_uni no_version_lookup no_version_lookup "http://foo"
    (by decide) ⟨"http".data, "foo".data, [], by decide, by decide⟩ (by decide)).1

/-- C9 (counterexample): from `foo`, with both version probes finding
nothing, the stringification is `foo-`; re-parsing it — whether as is or with
the resolved `none` version re-supplied explicitly as an (empty) `#` tag —
produces an identifier with path `foo-`, not equal to the original under the
`(path, version)` equality. -/
theorem C9_roundtrip_counterexample :
    PkgId.new no_version_lookup no_version_lookup ascii_uni "foo" =
      .ok ⟨⟨"foo"⟩, "foo", Version.none⟩ ∧
    PkgId.to_str ⟨⟨"foo"⟩, "foo", Version.none⟩ = "foo-" ∧
    PkgId.new no_version_lookup no_version_lookup ascii_uni "foo-" =
      .ok ⟨⟨"foo-"⟩, "foo-", Version.none⟩ ∧
    PkgId.eq ⟨⟨"foo"⟩, "foo", Version.none⟩ ⟨⟨"foo-"⟩, "foo-", Version.none⟩ = false ∧
    PkgId.new no_version_lookup no_version_lookup ascii_uni
        ("foo-" ++ "#" ++ Version.to_str Version.none) =
      .ok ⟨⟨"foo-"⟩, "foo-", Version.explicit ""⟩ ∧
    PkgId.eq ⟨⟨"foo"⟩, "foo", Version.none⟩
      ⟨⟨"foo-"⟩, "foo-", Version.explicit ""⟩ = false :=
  ⟨by decide, by decide, by decide, by decide, by decide, by decide⟩

/-- C9 (amended): for every accepted input, re-constructing from the
identifier's path string with the resolved version re-supplied explicitly
after `#` (the path string alone when the version is absent) yields the very
same identifier — in particular an equal one under the `(path, version)`
equality; the full stringification `path-version` does not re-parse, since
its `-version` suffix is absorbed into the path. -/
theorem C9_roundtrip_amended (lv rv : Path → Option Version) (uni : Char → Bool)
    (s : String) (id : PkgId) (h : PkgId.new lv rv uni s = .ok id) :
    PkgId.new lv rv uni (reparse_input id) = .ok id := by
  obtain ⟨hgate, hrel, nm, hfn, hid⟩ := new_ok_inv h
  have hnohash : '#' ∉ (split_pair s).2.data := path_part_no_hash s
  have hlegal : ∀ c ∈ (split_pair s).2.data, is_url_part uni c = true :=
    path_part_legal hgate
  have hpath : id.path = Path.new (split_pair s).2 := by rw [hid]
  cases hv : id.version with
  | none =>
    rcases split_pair_fst s with hgv | ⟨v, hgv⟩
    · have hreparse : reparse_input id = (split_pair s).2 := by
        unfold reparse_input
        rw [hv, hpath]
        rfl
      have hscan' : scan_legal uni (split_pair s).2.data = true := by
        rw [scan_legal_eq, no_hash_takeWhile hnohash]
        exact List.all_eq_true.mpr hlegal
      rw [hreparse, new_eq_post lv rv uni (split_pair s).2 hscan']
      have hsp' : split_pair (split_pair s).2 = (Option.none, (split_pair s).2) :=
        split_pair_of_none (split_version_none_of_no_hash hnohash)
      rw [hsp']
      rw [new_post_ok lv rv Option.none (split_pair s).2 nm hrel hfn]
      rw [hid, hgv]
    · rw [hid] at hv
      dsimp only at hv
      rw [hgv] at hv
      unfold resolve_version at hv
      cases hv
  | explicit t =>
    have hreparse : reparse_input id = (split_pair s).2 ++ "#" ++ t := by
      unfold reparse_input
      rw [hv, hpath]
      rfl
    have hdata : ((split_pair s).2 ++ "#" ++ t).data =
        (split_pair s).2.data ++ '#' :: t.data := by
      rw [String.data_append, String.data_append,
        show ("#" : String).data = ['#'] from rfl, List.append_assoc,
        List.singleton_append]
    have hscan' : scan_legal uni ((split_pair s).2 ++ "#" ++ t).data = true := by
      rw [scan_legal_eq, hdata, takeWhile_append_hash hnohash]
      exact List.all_eq_true.mpr hlegal
    rw [hreparse, new_eq_post lv rv uni _ hscan']
    have hsp : split_pair ((split_pair s).2 ++ "#" ++ t) =
        (some (Version.explicit t), (split_pair s).2) :=
      split_pair_of_some (split_version_append_hash (split_pair s).2 t hnohash)
    rw [hsp]
    rw [new_post_ok lv rv (some (Version.explicit t)) (split_pair s).2 nm hrel hfn]
    rw [hid] at hv ⊢
    dsimp only at hv
    rw [hv]
    rfl

/-- C9 (witness): `foo#1.2` round-trips — re-parsing `foo#1.2` rebuilt from
the identifier's path and explicit version yields the same identifier. -/
theorem C9_roundtrip_amended_witness :
    PkgId.new no_version_lookup no_version_lookup ascii_uni
        (reparse_input ⟨⟨"foo"⟩, "foo", Version.explicit "1.2"⟩) =
      .ok ⟨⟨"foo"⟩, "foo", Version.explicit "1.2"⟩ :=
  C9_roundtrip_amended no_version_lookup no_version_lookup ascii_uni "foo#1.2"
    ⟨⟨"foo"⟩, "foo", Version.explicit "1.2"⟩ (by decide)

end RustPkg
